import Mathlib

/-!
# Mock-server request pipeline: a shallow embedding

This file embeds the decision logic of a configurable mock HTTP server:
condition evaluation (`ConditionEvaluator` in `configLoader.ts`), route
matching (`RequestMatcher` in the middleware), template resolution
(`TemplateEngine` in `templateEngine.ts`) and response-body assembly with
fault injection (`ResponseProcessor` middleware), and proves or refutes
the specification's claims about them.

Modelling conventions:
- JavaScript strings are `List Char` (`Str`), so that every definition is
  executable and kernel-reducible on concrete inputs.
- JavaScript `undefined` is `Option.none`; JSON values are the `Json`
  inductive.  JavaScript numbers are modelled as `Int` (all numbers the
  claims exercise are integral; no float-specific behavior is involved).
- `===` on primitives is value equality; on objects and arrays it is
  reference equality, which for values of distinct provenance (config
  file vs. request) is `false`, and is modelled as constantly `false`.
- Timer-based behavior (`setTimeout`) is modelled by recording the delay
  and the response that the timer would deliver in an `Outcome` value.
-/

/-- JavaScript strings, as code-point lists. -/
abbrev Str := List Char

/-- A JSON value, the type of configuration and request data
(`any` in the TypeScript source).  `undefined` is represented
externally as `Option Json := none`. -/
inductive Json where
  | null
  | bool (b : Bool)
  | num (n : Int)
  | str (s : Str)
  | arr (elems : List Json)
  | obj (fields : List (Str × Json))
deriving Repr

/-- JavaScript truthiness of a defined value: `null`, `false`, `0` and
`""` are falsy; every array and object is truthy. -/
def jsTruthy : Json → Bool
  | .null => false
  | .bool b => b
  | .num n => n != 0
  | .str s => s != []
  | .arr _ => true
  | .obj _ => true

/-- JavaScript strict equality `===` between two defined values.
Primitives compare by value; objects and arrays compare by reference,
which is `false` for the config-literal vs. request-value comparisons
performed by the evaluator (the two sides never alias). -/
def jsStrictEq : Json → Json → Bool
  | .null, .null => true
  | .bool a, .bool b => a == b
  | .num a, .num b => a == b
  | .str a, .str b => a == b
  | _, _ => false

/-- `a === v` where `a` may be `undefined` and `v` is defined. -/
def jsStrictEqOpt (a : Option Json) (v : Json) : Bool :=
  match a with
  | some x => jsStrictEq x v
  | none => false

/-- First-match association lookup, the model of JavaScript object
property access (object keys are unique, so first match is the match). -/
def jsonLookup (fields : List (Str × Json)) (key : Str) : Option Json :=
  match fields with
  | [] => none
  | (k, v) :: rest => if k == key then some v else jsonLookup rest key

/-- Digits-only parse of a property key (no sign, no whitespace);
`none` when the key is empty or has a non-digit character. -/
def strAsNat? (key : Str) : Option Nat :=
  if key ≠ [] ∧ key.all Char.isDigit then
    some (key.foldl (fun a c => a * 10 + (c.toNat - '0'.toNat)) 0)
  else none

/-- `value?.[key]` for a defined JSON value: property access on objects;
index access on arrays for canonical numeric keys (the digits of the
index itself, so `"00"` is not an index, as in JavaScript); `undefined`
otherwise.  (String character indexing is not modelled; no claim
exercises it.) -/
def jsonGet (v : Json) (key : Str) : Option Json :=
  match v with
  | .obj fields => jsonLookup fields key
  | .arr elems =>
      match strAsNat? key with
      | some i => if (toString i).toList = key then elems.get? i else none
      | none => none
  | _ => none

/-- First-match lookup in a string-valued record
(`Record<string, string>` in the source). -/
def strLookup (fields : List (Str × Str)) (key : Str) : Option Str :=
  match fields with
  | [] => none
  | (k, v) :: rest => if k == key then some v else strLookup rest key

/-- `TemplateContext` (`templateEngine.ts`): the per-request snapshot
`{ params, query, body, headers }`.  `params`, `query` and `headers` are
string maps; `body` is arbitrary JSON. -/
structure Ctx where
  params : List (Str × Str)
  query : List (Str × Str)
  body : Json
  headers : List (Str × Str)

/-- The context viewed as the JSON object that the nested-path walk of
`getValueFromContext` / `resolveVariable` starts from. -/
def ctxJson (ctx : Ctx) : Json :=
  .obj [(['p','a','r','a','m','s'], .obj (ctx.params.map fun p => (p.1, .str p.2))),
        (['q','u','e','r','y'], .obj (ctx.query.map fun p => (p.1, .str p.2))),
        (['b','o','d','y'], ctx.body),
        (['h','e','a','d','e','r','s'], .obj (ctx.headers.map fun p => (p.1, .str p.2)))]

/-- `String.prototype.split(sep)` for a one-character separator, as used
with `'.'` on dotted keys and `'/'` on paths. -/
def splitOnChar (sep : Char) : Str → List Str
  | [] => [[]]
  | c :: rest =>
      if c = sep then [] :: splitOnChar sep rest
      else
        match splitOnChar sep rest with
        | s :: ss => (c :: s) :: ss
        | [] => [[c]]

/-- The loop body of the nested object access in `getValueFromContext`
and `resolveVariable`: index progressively, `undefined` as soon as the
current value is not an addressable object. Arrays are `typeof 'object'`
in JavaScript, hence addressable. -/
def walkPath : Json → List Str → Option Json
  | v, [] => some v
  | .obj fields, p :: ps =>
      match jsonLookup fields p with
      | some v => walkPath v ps
      | none => none
  | .arr elems, p :: ps =>
      match jsonGet (.arr elems) p with
      | some v => walkPath v ps
      | none => none
  | _, _ :: _ => none

/-- Shared dotted-key resolution: two-segment keys select a source map
(`params`, `query`, `body`, `headers`); longer keys walk the context
object progressively; anything else is `undefined`.  This is the common
body of `ConditionEvaluator.getValueFromContext` and the context branch
of `TemplateEngine.resolveVariable`, which are textually identical in
the source. -/
def contextLookup (key : Str) (ctx : Ctx) : Option Json :=
  match splitOnChar '.' key with
  | [source, field] =>
      if source = ['p','a','r','a','m','s'] then (strLookup ctx.params field).map .str
      else if source = ['q','u','e','r','y'] then (strLookup ctx.query field).map .str
      else if source = ['b','o','d','y'] then jsonGet ctx.body field
      else if source = ['h','e','a','d','e','r','s'] then (strLookup ctx.headers field).map .str
      else none
  | parts =>
      if 2 < parts.length then walkPath (ctxJson ctx) parts
      else none

/-- `ConditionEvaluator.getValueFromContext` (`configLoader.ts`). -/
def getValueFromContext (key : Str) (ctx : Ctx) : Option Json :=
  contextLookup key ctx

/-- The `ConditionValue` operator object of `configLoader.ts`
(`exists`, `equals`, `not`, `contains`, `startsWith`, `endsWith`,
`greaterThan`, `lessThan`, `in`), with `Option.none` for an absent key. -/
structure ConditionValue where
  existsOp : Option Bool := none
  equalsOp : Option Json := none
  notOp : Option Json := none
  containsOp : Option Str := none
  startsWithOp : Option Str := none
  endsWithOp : Option Str := none
  greaterThanOp : Option Int := none
  lessThanOp : Option Int := none
  inOp : Option (List Json) := none

/-- An expected value on the right of a field-map entry: a primitive
literal (strict equality), an operator object, or a value of another
shape (array, null), which never matches. -/
inductive Expected where
  | str (s : Str)
  | num (n : Int)
  | bool (b : Bool)
  | null
  | arr (elems : List Json)
  | ops (c : ConditionValue)

/-- `str.includes(needle)`: substring containment. -/
def strIncludes (hay needle : Str) : Bool :=
  needle.isPrefixOf hay ||
    match hay with
    | [] => false
    | _ :: t => strIncludes t needle

/-- The `exists` test of `matchesCondition`: defined, non-null and not
the empty string. -/
def existsCheck (a : Option Json) : Bool :=
  match a with
  | none => false
  | some .null => false
  | some (.str []) => false
  | some _ => true

/-- `ConditionEvaluator.matchesCondition` (`configLoader.ts` lines
320–378): primitive expected values compare by strict equality; an
operator object is tested by the first if-branch whose key is present
and (for the typed operators) whose type guard holds; `false` if no
branch fires. -/
def matchesCondition (actualValue : Option Json) (expectedValue : Expected) : Bool :=
  match expectedValue with
  | .str s => jsStrictEqOpt actualValue (.str s)
  | .num n => jsStrictEqOpt actualValue (.num n)
  | .bool b => jsStrictEqOpt actualValue (.bool b)
  | .null => false
  | .arr _ => false
  | .ops c =>
      match c.existsOp with
      | some b => b == existsCheck actualValue
      | none =>
      match c.equalsOp with
      | some v => jsStrictEqOpt actualValue v
      | none =>
      match c.notOp with
      | some v => !jsStrictEqOpt actualValue v
      | none =>
      match c.containsOp, actualValue with
      | some s, some (.str a) => strIncludes a s
      | _, _ =>
      match c.startsWithOp, actualValue with
      | some s, some (.str a) => s.isPrefixOf a
      | _, _ =>
      match c.endsWithOp, actualValue with
      | some s, some (.str a) => s.isSuffixOf a
      | _, _ =>
      match c.greaterThanOp, actualValue with
      | some n, some (.num a) => n < a
      | _, _ =>
      match c.lessThanOp, actualValue with
      | some n, some (.num a) => a < n
      | _, _ =>
      match c.inOp with
      | some l => l.any fun e => jsStrictEqOpt actualValue e
      | none => false

/-- A condition object (`Condition` in `configLoader.ts`): the optional
logical keys `$and`, `$or`, `$not` plus the remaining (ordered) field
entries.  `Option.some` means the key is present with a value of its
declared type. -/
inductive Cond where
  | mk (andL : Option (List Cond)) (orL : Option (List Cond))
       (notC : Option Cond) (fields : List (Str × Expected))

/-- The field-map loop of `ConditionEvaluator.evaluate`: keys beginning
with `$` are skipped; every other entry must match (implicit AND). -/
def evalFields (fields : List (Str × Expected)) (ctx : Ctx) : Bool :=
  match fields with
  | [] => true
  | (key, expected) :: rest =>
      if key.head? = some '$' then evalFields rest ctx
      else matchesCondition (getValueFromContext key ctx) expected && evalFields rest ctx

mutual

/-- `ConditionEvaluator.evaluate` (`configLoader.ts` lines 256–284):
`$and` is tested first, then `$or`, then `$not`; each returns
immediately when present.  Otherwise the field entries are checked. -/
def evaluate : Cond → Ctx → Bool
  | .mk (some l) _ _ _, ctx => evalAll l ctx
  | .mk none (some l) _ _, ctx => evalAny l ctx
  | .mk none none (some c) _, ctx => !evaluate c ctx
  | .mk none none none fields, ctx => evalFields fields ctx

/-- `Array.prototype.every` over `evaluate` (the `$and` branch). -/
def evalAll : List Cond → Ctx → Bool
  | [], _ => true
  | c :: cs, ctx => evaluate c ctx && evalAll cs ctx

/-- `Array.prototype.some` over `evaluate` (the `$or` branch). -/
def evalAny : List Cond → Ctx → Bool
  | [], _ => false
  | c :: cs, ctx => evaluate c ctx || evalAny cs ctx

end

/-! ## Response selection (`RequestMatcher`, `ConditionEvaluator`) -/

/-- `ConditionEvaluator.findMatchingCondition` (`configLoader.ts` lines
384–391): return the `response` of the first rule whose `when`
evaluates true, `null` when none does. -/
def findMatchingCondition : List (Cond × Json) → Ctx → Json
  | [], _ => .null
  | (w, r) :: rest, ctx =>
      if evaluate w ctx then r else findMatchingCondition rest ctx

/-- `RequestMatcher.findMatchingResponse` (middleware lines 93–108):
when the route has conditions, take the first matching rule's response
if it is truthy, otherwise fall back to `defaultResponse`. -/
def findMatchingResponse (conditions : List (Cond × Json)) (defaultResponse : Json)
    (ctx : Ctx) : Json :=
  if conditions.length > 0 then
    let matchedCondition := findMatchingCondition conditions ctx
    if jsTruthy matchedCondition then matchedCondition else defaultResponse
  else defaultResponse

/-- The selection the specification describes: the response of the first
rule (in declaration order) whose `when` evaluates true, or
`defaultResponse` when none does. -/
def specSelectResponse : List (Cond × Json) → Json → Ctx → Json
  | [], d, _ => d
  | (w, r) :: rest, d, ctx =>
      if evaluate w ctx then r else specSelectResponse rest d ctx

/-! ## Path matching (`RequestMatcher.matchesPath` and helpers)

`matchesPath` compiles the route pattern to a regular expression by
replacing every maximal run `:[^/]+` with the capture group `([^/]+)`
and escaping `/`, then anchors it with `^…$` and tests the request
path.  The remaining pattern characters are regex-literal except `.`,
which is the any-character metacharacter.  The model covers patterns
built from `/`, `:`, `.` and regex-ordinary characters (route patterns
containing other metacharacters such as `*`, `+`, `(`, `[` are outside
the model). -/

/-- One token of the compiled route regex: a literal character, the `.`
metacharacter, or the `([^/]+)` group produced from a `:name` run. -/
inductive Tok where
  | lit (c : Char)
  | dot
  | param
deriving Repr, DecidableEq

/-- JavaScript line terminators, which `.` does not match. -/
def isLineTerm (c : Char) : Bool :=
  c = '\n' || c = '\r' || c = ' ' || c = ' '

/-- `dropWhile` never lengthens a list (termination helper). -/
theorem dropWhileLenLe (p : Char → Bool) : ∀ l : Str, (l.dropWhile p).length ≤ l.length
  | [] => Nat.le_refl _
  | c :: rest => by
      simp only [List.dropWhile]
      split
      · exact Nat.le_trans (dropWhileLenLe p rest) (Nat.le_succ _)
      · exact Nat.le_refl _

/-- Tokenization of a route pattern, mirroring
`configPath.replace(/:[^/]+/g, '([^/]+)').replace(/\//g, '\\/')`:
a `:` followed by at least one non-`/` character starts a parameter run
(consumed greedily up to the next `/`), `.` compiles to the wildcard,
every other character to itself. -/
def tokenize : Str → List Tok
  | [] => []
  | ':' :: rest =>
      if rest.takeWhile (fun c => c != '/') = [] then .lit ':' :: tokenize rest
      else .param :: tokenize (rest.dropWhile (fun c => c != '/'))
  | '.' :: rest => .dot :: tokenize rest
  | c :: rest => .lit c :: tokenize rest
termination_by s => s.length
decreasing_by
  all_goals simp_wf
  all_goals first
    | omega
    | (have h := dropWhileLenLe (fun c => c != '/') rest; omega)

mutual

/-- Anchored matching of the compiled token list against the path:
`rmatch toks path` is the `^…$` regex test. -/
def rmatch : List Tok → Str → Bool
  | [], [] => true
  | [], _ :: _ => false
  | _ :: _, [] => false
  | .lit c :: ts, x :: xs => c == x && rmatch ts xs
  | .dot :: ts, x :: xs => !isLineTerm x && rmatch ts xs
  | .param :: ts, x :: xs => x != '/' && paramMatch ts xs

/-- Matching of the tail of a `([^/]+)` group: having consumed at least
one non-`/` character, either stop here or consume another. -/
def paramMatch : List Tok → Str → Bool
  | ts, [] => rmatch ts []
  | ts, x :: xs => rmatch ts (x :: xs) || (x != '/' && paramMatch ts xs)

end

/-- `RequestMatcher.matchesPath` (middleware lines 83–91). -/
def matchesPath (configPath requestPath : Str) : Bool :=
  rmatch (tokenize configPath) requestPath

/-- `method.toUpperCase()` (ASCII; HTTP method strings are ASCII). -/
def jsToUpper (s : Str) : Str := s.map Char.toUpper

/-- The method comparison of `RequestMatcher.matchesRoute` (middleware
lines 73–81): `config.method.toUpperCase() !== method.toUpperCase()`. -/
def methodMatches (configMethod requestMethod : Str) : Bool :=
  jsToUpper configMethod == jsToUpper requestMethod

/-- `RequestMatcher.matchesRoute`: method comparison, then path match. -/
def matchesRoute (configMethod configPath method requestPath : Str) : Bool :=
  methodMatches configMethod method && matchesPath configPath requestPath

/-- `RequestMatcher.extractPathParams` (middleware lines 111–132):
split both strings on `/`; if the segment counts differ return the
empty map, otherwise bind `name ↦ segment` for every pattern segment
`:name`, in order. -/
def extractPathParams (configPath requestPath : Str) : List (Str × Str) :=
  let configSegments := splitOnChar '/' configPath
  let requestSegments := splitOnChar '/' requestPath
  if configSegments.length ≠ requestSegments.length then []
  else extractLoop (configSegments.zip requestSegments)
where
  /-- The indexed loop over aligned segments. -/
  extractLoop : List (Str × Str) → List (Str × Str)
  | [] => []
  | (c, r) :: rest =>
      if c.head? = some ':' then (c.drop 1, r) :: extractLoop rest
      else extractLoop rest

/-- The specification's per-segment matching rule: a segment prefixed
with `:` matches any non-empty path segment, any other segment requires
exact string equality. -/
def segMatches (patSeg pathSeg : Str) : Bool :=
  match patSeg with
  | ':' :: _ => pathSeg != []
  | _ => patSeg == pathSeg

/-- Pairwise segment matching (equivalent to the equal-length plus
zip-wise form of `specPathMatch`; used as the induction scheme). -/
def segsMatch : List Str → List Str → Bool
  | [], [] => true
  | [], _ :: _ => false
  | _ :: _, [] => false
  | p :: ps, q :: qs => segMatches p q && segsMatch ps qs

/-- The path-matching relation the specification describes: equal
segment counts and `segMatches` segment-wise. -/
def specPathMatch (configPath requestPath : Str) : Bool :=
  let ps := splitOnChar '/' configPath
  let qs := splitOnChar '/' requestPath
  ps.length == qs.length && (ps.zip qs).all fun pq => segMatches pq.1 pq.2

/-- The characters that carry metacharacter meaning inside the compiled
regular expression (the source escapes only `/`). -/
def regexMeta : List Char :=
  ['.', '^', '$', '*', '+', '?', '(', ')', '[', ']', '{', '}', '|', '\\']

/-- Wellformedness of one pattern segment for the amended claim: either
a parameter segment (`:` followed by a non-empty name) or a literal
segment containing neither `:` (which would start a partial-segment
capture) nor any regex metacharacter (which the source's compiled
regex would interpret, e.g. `.` as a wildcard and `+` as a repetition). -/
def wfSeg (s : Str) : Bool :=
  match s with
  | ':' :: rest => rest != []
  | _ => !s.contains ':' && s.all fun c => !regexMeta.contains c

/-- Wellformedness of a route pattern: every `/`-separated segment is
wellformed. -/
def wfPattern (configPath : Str) : Bool :=
  (splitOnChar '/' configPath).all wfSeg

/-! ## Template engine (`templateEngine.ts`)

The five system generators (`currentTimestamp`, `currentDate`,
`generateId`, `randomNumber`, `randomEmail`) produce fresh
nondeterministic values; the engine is parametrized by a function
`sys : Str → Json` giving the value each generator call produces. -/

/-- The keys of `TemplateEngine.systemVariables`. -/
def systemVarNames : List Str :=
  ["currentTimestamp".toList, "currentDate".toList, "generateId".toList,
   "randomNumber".toList, "randomEmail".toList]

/-- JavaScript whitespace for `trim` (ASCII portion). -/
def jsWhitespace (c : Char) : Bool :=
  c = ' ' || c = '\t' || c = '\n' || c = '\r' || c = '\x0b' || c = '\x0c'

/-- `String.prototype.trim()`. -/
def jsTrim (s : Str) : Str :=
  ((s.dropWhile jsWhitespace).reverse.dropWhile jsWhitespace).reverse

/-- `TemplateEngine.resolveVariable`: system generators first, then the
dotted-path context lookup shared with the condition evaluator;
`undefined` when neither resolves. -/
def resolveVariable (sys : Str → Json) (varName : Str) (ctx : Ctx) : Option Json :=
  if systemVarNames.contains varName then some (sys varName)
  else contextLookup varName ctx

mutual

/-- `String(value)`: JavaScript stringification of a defined value.
Arrays stringify as their elements joined by `,` (`null` elements as the
empty string), objects as `"[object Object]"`. -/
def jsToString : Json → Str
  | .null => "null".toList
  | .bool true => "true".toList
  | .bool false => "false".toList
  | .num n => (toString n).toList
  | .str s => s
  | .arr xs => joinComma xs
  | .obj _ => "[object Object]".toList

/-- `Array.prototype.join(',')` over stringified elements. -/
def joinComma : List Json → Str
  | [] => []
  | [.null] => []
  | [x] => jsToString x
  | .null :: y :: xs => ',' :: joinComma (y :: xs)
  | x :: y :: xs => jsToString x ++ ',' :: joinComma (y :: xs)

end

/-- The anchored full-placeholder test `/^\{\{([^}]+)\}\}$/` of
`replaceVariables`: the whole string is `{{inner}}` with `inner`
non-empty and free of `}`. -/
def fullPlaceholder? (s : Str) : Option Str :=
  match s with
  | '{' :: '{' :: rest =>
      let inner := rest.takeWhile (fun c => c != '}')
      if inner ≠ [] ∧ rest.drop inner.length = ['}', '}'] then some inner else none
  | _ => none

/-- The global replacement `str.replace(/\{\{([^}]+)\}\}/g, …)`:
leftmost-first scan; each match `{{inner}}` is replaced by the
stringified resolved value, or left in place when the name does not
resolve. -/
def replaceVarsScan (sys : Str → Json) (ctx : Ctx) : Str → Str
  | [] => []
  | '{' :: '{' :: rest =>
      let inner := rest.takeWhile (fun c => c != '}')
      if inner ≠ [] ∧ ['}', '}'].isPrefixOf (rest.drop inner.length) then
        (match resolveVariable sys (jsTrim inner) ctx with
         | some v => jsToString v
         | none => '{' :: '{' :: (inner ++ ['}', '}'])) ++
        replaceVarsScan sys ctx (rest.drop (inner.length + 2))
      else '{' :: replaceVarsScan sys ctx ('{' :: rest)
  | c :: rest => c :: replaceVarsScan sys ctx rest
termination_by s => s.length
decreasing_by
  all_goals simp_wf
  all_goals omega

/-- `TemplateEngine.replaceVariables`: a string that is entirely one
placeholder resolves to the raw resolved value (type preserved), with
the original string as fallback; otherwise every embedded placeholder
is replaced by the string form of its value. -/
def replaceVariables (sys : Str → Json) (s : Str) (ctx : Ctx) : Json :=
  match fullPlaceholder? s with
  | some inner =>
      match resolveVariable sys (jsTrim inner) ctx with
      | some v => v
      | none => .str s
  | none => .str (replaceVarsScan sys ctx s)

mutual

/-- `TemplateEngine.processTemplate`: strings go through
`replaceVariables`; arrays and objects are rebuilt with every member
processed; all other values are returned unchanged. -/
def processTemplate (sys : Str → Json) : Json → Ctx → Json
  | .str s, ctx => replaceVariables sys s ctx
  | .arr xs, ctx => .arr (processTemplateList sys xs ctx)
  | .obj fs, ctx => .obj (processTemplateObj sys fs ctx)
  | v, _ => v

/-- `template.map(item => processTemplate(item, context))`. -/
def processTemplateList (sys : Str → Json) : List Json → Ctx → List Json
  | [], _ => []
  | x :: xs, ctx => processTemplate sys x ctx :: processTemplateList sys xs ctx

/-- The `Object.entries` rebuild of an object template. -/
def processTemplateObj (sys : Str → Json) : List (Str × Json) → Ctx → List (Str × Json)
  | [], _ => []
  | (k, v) :: fs, ctx => (k, processTemplate sys v ctx) :: processTemplateObj sys fs ctx

end

/-! ## Response processing (`ResponseProcessor` middleware) -/

/-- The `limit` field of a body spec: a number or a template string. -/
inductive LimitV where
  | num (n : Int)
  | str (s : Str)

/-- `ResponseBody` (`types.ts`): `data`, `dataFile`, `filter`, `limit`,
`dynamicFields`, each optional.  `Option.none` is an absent key. -/
structure ResponseBody where
  data? : Option Json := none
  dataFile? : Option Str := none
  filter? : Option (List (Str × Json)) := none
  limit? : Option LimitV := none
  dynamicFields? : Option (List (Str × Json)) := none

/-- `ResponseProcessor.filterData`: keep the array elements whose every
filter key strictly equals the element's field; non-arrays pass through
untouched. -/
def filterData (data : Json) (filter : List (Str × Json)) : Json :=
  match data with
  | .arr xs =>
      .arr (xs.filter fun item => filter.all fun kv => jsStrictEqOpt (jsonGet item kv.1) kv.2)
  | d => d

/-- JavaScript integer digit-run parsing (radix 10): the maximal leading
digit run, `none` when there is none. -/
def digitsVal (s : Str) : Option Nat :=
  let ds := s.takeWhile Char.isDigit
  if ds = [] then none
  else some (ds.foldl (fun a c => a * 10 + (c.toNat - '0'.toNat)) 0)

/-- `parseInt(s, 10)`: skip leading whitespace, optional sign, then the
maximal digit run; `NaN` (here `none`) when no digit follows. -/
def parseIntJs (s : Str) : Option Int :=
  match s.dropWhile jsWhitespace with
  | '-' :: r => (digitsVal r).map fun n => -(n : Int)
  | '+' :: r => (digitsVal r).map fun n => (n : Int)
  | r => (digitsVal r).map fun n => (n : Int)

/-- Truthiness of the `limit` value (`if (body.limit && …)`). -/
def limTruthy : LimitV → Bool
  | .num n => n != 0
  | .str s => s != []

/-- The parsed limit: a string limit is first run through the template
engine, then `parseInt(String(·), 10)`; a numeric limit is itself. -/
def resolveLimit (sys : Str → Json) (ctx : Ctx) : LimitV → Option Int
  | .num n => some n
  | .str s => parseIntJs (jsToString (processTemplate sys (.str s) ctx))

/-- The limit block of `processResponseBody` (lines 698–711): only a
truthy `limit` on an array result, parsing to a positive integer,
truncates (`slice(0, limit)`); everything else leaves the value
untouched. -/
def applyLimit (sys : Str → Json) (ctx : Ctx) (limit? : Option LimitV)
    (responseData : Json) : Json :=
  match limit?, responseData with
  | some l, .arr xs =>
      if limTruthy l then
        match resolveLimit sys ctx l with
        | some n => if 0 < n then .arr (xs.take n.toNat) else .arr xs
        | none => .arr xs
      else .arr xs
  | _, d => d

/-- Own enumerable properties produced by object spread `{...v}`:
an object's fields; an array's or a string's indexed members; nothing
for other primitives. -/
def spreadProps : Json → List (Str × Json)
  | .obj fs => fs
  | .arr xs => xs.enum.map fun ix => ((toString ix.1).toList, ix.2)
  | .str s => s.enum.map fun ic => ((toString ic.1).toList, Json.str [ic.2])
  | _ => []

/-- Insert-or-overwrite of one property, preserving first-insertion
order as JavaScript objects do. -/
def setKey : List (Str × Json) → Str → Json → List (Str × Json)
  | [], k, v => [(k, v)]
  | (k', v') :: rest, k, v =>
      if k' == k then (k, v) :: rest else (k', v') :: setKey rest k v

/-- `{...base, ...extra}`. -/
def objMerge (base : Json) (extra : List (Str × Json)) : Json :=
  .obj (extra.foldl (fun acc kv => setKey acc kv.1 kv.2) (spreadProps base))

/-- The `dynamicFields` merge of `processResponseBody`: overlay onto
every array element, or onto the value itself. -/
def mergeDynamicFields (d : Json) (dynamicFields : List (Str × Json)) : Json :=
  match d with
  | .arr xs => .arr (xs.map fun item => objMerge item dynamicFields)
  | v => objMerge v dynamicFields

/-- Truthiness of `body.dataFile` (a non-empty string). -/
def fileTruthy : Option Str → Bool
  | some f => f != []
  | none => false

/-- Truthiness of `body.data`. -/
def dataTruthy : Option Json → Bool
  | some d => jsTruthy d
  | none => false

/-- The `if (body.dataFile) { … }` block of `processResponseBody`
(lines 689–712): load the named blob (a missing blob throws), apply
`filter` if present, then the limit block; the result overrides the
seeded `data`.  A falsy (empty) `dataFile` skips the block. -/
def dataFileStep (sys : Str → Json) (body : ResponseBody) (ctx : Ctx)
    (dataLookup : Str → Option Json) (responseData : Json) : Except Str Json :=
  match body.dataFile? with
  | some f =>
      if f = [] then .ok responseData
      else
        match dataLookup f with
        | none => .error ("Failed to load data file: ".toList ++ f)
        | some fileData =>
            let filtered :=
              match body.filter? with
              | some flt => filterData fileData flt
              | none => fileData
            .ok (applyLimit sys ctx body.limit? filtered)
  | none => .ok responseData

/-- `ResponseProcessor.processResponseBody` (lines 680–742): seed with
`data` when present (`!== undefined`), run the `dataFile` block, merge
`dynamicFields`, resolve templates, and wrap as `{ data: … }` exactly
when `body.dataFile || body.data` is truthy.  A missing data blob is
the thrown per-request error. -/
def processResponseBody (sys : Str → Json) (body : ResponseBody) (ctx : Ctx)
    (dataLookup : Str → Option Json) : Except Str Json :=
  let seeded :=
    match body.data? with
    | some d => d
    | none => Json.obj []
  match dataFileStep sys body ctx dataLookup seeded with
  | .error e => .error e
  | .ok responseData =>
      let merged :=
        match body.dynamicFields? with
        | some df => mergeDynamicFields responseData df
        | none => responseData
      let processedData := processTemplate sys merged ctx
      if fileTruthy body.dataFile? || dataTruthy body.data? then
        .ok (.obj [("data".toList, processedData)])
      else .ok processedData

/-! ## Fault injection (`ResponseProcessor.middleware`, `applyTimeout`) -/

/-- The `timeout` field: a boolean or a number of milliseconds. -/
inductive TimeoutV where
  | bool (b : Bool)
  | num (n : Int)

/-- `ConnectionFailureConfig.type`. -/
inductive FailType where
  | reset
  | silent

/-- `ConnectionFailureConfig` (`types.ts`). -/
structure ConnectionFailureConfig where
  type : FailType
  delay? : Option Int := none

/-- `LatencyConfig` (`types.ts`). -/
structure LatencyConfig where
  enabled : Bool
  delay? : Option Int := none
  min? : Option Int := none
  max? : Option Int := none

/-- `RouteResponse` (`types.ts`). -/
structure RouteResponse where
  statusCode : Int
  body : ResponseBody
  latency? : Option LatencyConfig := none
  timeout? : Option TimeoutV := none
  connectionFailure? : Option ConnectionFailureConfig := none

/-- The terminal outcome of the response middleware for one matched
request.  `timeoutPending ms status body` records a scheduled timer
that, after `ms` milliseconds without another completion, delivers
`status` with `body` (the `setTimeout` of `applyTimeout`); the latency
wait of the normal path is not represented (no claim depends on it). -/
inductive Outcome where
  | connFail (cfg : ConnectionFailureConfig)
  | timeoutPending (ms : Int) (status : Int) (respBody : Json)
  | normal (status : Int) (respBody : Json)
  | serverError (status : Int)

/-- The 408 body built by `ResponseProcessor.applyTimeout` (lines
799–817): `{error, message, path, query}` with the descriptive
message `Request timed out after <ms>ms`. -/
def timeoutBody (ms : Int) (reqPath : Str) (reqQuery : List (Str × Json)) : Json :=
  .obj [("error".toList, .str "Request timeout".toList),
        ("message".toList, .str ("Request timed out after ".toList ++ (toString ms).toList ++ "ms".toList)),
        ("path".toList, .str reqPath),
        ("query".toList, .obj reqQuery)]

/-- `ResponseProcessor.middleware` (lines 596–648) for a matched
request: connection failure first; then `timeout === true` schedules
the default 5000 ms timer without touching the body; then a numeric
timeout schedules that duration; otherwise the normal path assembles
the body (a thrown assembly error yields the 500 handler). -/
def middlewareOutcome (sys : Str → Json) (resp : RouteResponse) (reqPath : Str)
    (reqQuery : List (Str × Json)) (ctx : Ctx)
    (dataLookup : Str → Option Json) : Outcome :=
  match resp.connectionFailure? with
  | some cfg => .connFail cfg
  | none =>
      match resp.timeout? with
      | some (.bool true) => .timeoutPending 5000 408 (timeoutBody 5000 reqPath reqQuery)
      | some (.num t) => .timeoutPending t 408 (timeoutBody t reqPath reqQuery)
      | _ =>
          match processResponseBody sys resp.body ctx dataLookup with
          | .ok b => .normal resp.statusCode b
          | .error _ => .serverError 500

/-! ## Auxiliary definitions used by the claim statements and proofs -/

/-- Whether a value is an array (`Array.isArray`). -/
def isArr : Json → Bool
  | .arr _ => true
  | _ => false

/-- Whether an optional value is a string. -/
def isStrVal : Option Json → Bool
  | some (.str _) => true
  | _ => false

/-- Whether an optional value is a number. -/
def isNumVal : Option Json → Bool
  | some (.num _) => true
  | _ => false

/-- The body-assembly pipeline without the final envelope: seed, data
file block, dynamic fields, template resolution.  `processResponseBody`
is this followed by the conditional `{ data: … }` wrap. -/
def assembledCore (sys : Str → Json) (body : ResponseBody) (ctx : Ctx)
    (dataLookup : Str → Option Json) : Except Str Json :=
  let seeded :=
    match body.data? with
    | some d => d
    | none => Json.obj []
  match dataFileStep sys body ctx dataLookup seeded with
  | .error e => .error e
  | .ok responseData =>
      let merged :=
        match body.dynamicFields? with
        | some df => mergeDynamicFields responseData df
        | none => responseData
      .ok (processTemplate sys merged ctx)

/-- The token list one wellformed pattern segment compiles to: a
parameter run compiles to the capture group, a literal segment to its
characters. -/
def tokSeg (s : Str) : List Tok :=
  match s with
  | ':' :: _ => [.param]
  | _ => s.map .lit

/-- The token list a `/`-joined segment list compiles to. -/
def tokJoin : List Str → List Tok
  | [] => []
  | [s] => tokSeg s
  | s :: ss => tokSeg s ++ .lit '/' :: tokJoin ss

/-- Re-joining segments with `/` (left inverse of `splitOnChar '/'`). -/
def joinSegs : List Str → Str
  | [] => []
  | [s] => s
  | s :: ss => s ++ '/' :: joinSegs ss

/-- The remaining split segments after the first: empty unless the rest
of the string starts with the separator. -/
def tailSplit : Str → List Str
  | '/' :: r => splitOnChar '/' r
  | _ => []

/-- Matching of a token list that must begin by consuming a `/`. -/
def afterSlash (ts : List Tok) (x : Str) : Bool :=
  (x.head? == some '/') && rmatch ts x.tail

/-! ## Claim theorems -/

/-- C3: for all condition nodes `A`, `B` and every context,
`evaluate {$and:[A,B]}` is the conjunction, `evaluate {$or:[A,B]}` the
disjunction, and `evaluate {$not:A}` the negation of the child
evaluations. -/
theorem evaluate_logical_connectives (A B : Cond) (ctx : Ctx) :
    evaluate (.mk (some [A, B]) none none []) ctx = (evaluate A ctx && evaluate B ctx) ∧
    evaluate (.mk none (some [A, B]) none []) ctx = (evaluate A ctx || evaluate B ctx) ∧
    evaluate (.mk none none (some A) []) ctx = !evaluate A ctx := by
  refine ⟨?_, ?_, ?_⟩ <;> simp [evaluate, evalAll, evalAny]

/-- C10: the logical keys are consulted in the fixed order `$and`,
`$or`, `$not`, and the first one present fully determines the result:
the later logical keys and all field entries of the same object are
ignored. -/
theorem evaluate_logical_key_priority (ctx : Ctx) :
    (∀ l o n fs, evaluate (.mk (some l) o n fs) ctx = evaluate (.mk (some l) none none []) ctx) ∧
    (∀ l n fs, evaluate (.mk none (some l) n fs) ctx = evaluate (.mk none (some l) none []) ctx) ∧
    (∀ c fs, evaluate (.mk none none (some c) fs) ctx = evaluate (.mk none none (some c) []) ctx) := by
  refine ⟨fun l o n fs => ?_, fun l n fs => ?_, fun c fs => ?_⟩ <;> rfl

/-- C7 counterexample: with `{contains: "x", startsWith: "y"}` against
the string `"xy"`, the entry matches even though the `startsWith` check
fails — the first applicable operator decides alone, so "all specified
operator checks must hold" is false. -/
theorem matchesCondition_multi_op_counterexample :
    matchesCondition (some (.str ['x', 'y']))
        (.ops { containsOp := some ['x'], startsWithOp := some ['y'] }) = true ∧
    List.isPrefixOf ['y'] ['x', 'y'] = false :=
  ⟨rfl, rfl⟩

/-- C7 (amended): in an operator object, the first operator in the
fixed order `exists`, `equals`, `not`, `contains`, `startsWith`,
`endsWith`, `greaterThan`, `lessThan`, `in` whose key is present and
whose type guard holds determines the entry's result by itself; the
remaining operators are ignored, and the entry fails when no check
fires. -/
theorem matchesCondition_first_operator_decides :
    (∀ c a b, c.existsOp = some b →
        matchesCondition a (.ops c) = (b == existsCheck a)) ∧
    (∀ c a v, c.existsOp = none → c.equalsOp = some v →
        matchesCondition a (.ops c) = jsStrictEqOpt a v) ∧
    (∀ c a v, c.existsOp = none → c.equalsOp = none → c.notOp = some v →
        matchesCondition a (.ops c) = !jsStrictEqOpt a v) ∧
    (∀ c s x, c.existsOp = none → c.equalsOp = none → c.notOp = none →
        c.containsOp = some s →
        matchesCondition (some (.str x)) (.ops c) = strIncludes x s) ∧
    (∀ c s x, c.existsOp = none → c.equalsOp = none → c.notOp = none →
        c.containsOp = none → c.startsWithOp = some s →
        matchesCondition (some (.str x)) (.ops c) = s.isPrefixOf x) ∧
    (∀ c s x, c.existsOp = none → c.equalsOp = none → c.notOp = none →
        c.containsOp = none → c.startsWithOp = none → c.endsWithOp = some s →
        matchesCondition (some (.str x)) (.ops c) = s.isSuffixOf x) ∧
    (∀ c n x, c.existsOp = none → c.equalsOp = none → c.notOp = none →
        c.greaterThanOp = some n →
        matchesCondition (some (.num x)) (.ops c) = decide (n < x)) ∧
    (∀ c n x, c.existsOp = none → c.equalsOp = none → c.notOp = none →
        c.greaterThanOp = none → c.lessThanOp = some n →
        matchesCondition (some (.num x)) (.ops c) = decide (x < n)) ∧
    (∀ c l a, c.existsOp = none → c.equalsOp = none → c.notOp = none →
        c.containsOp = none → c.startsWithOp = none → c.endsWithOp = none →
        c.greaterThanOp = none → c.lessThanOp = none → c.inOp = some l →
        matchesCondition a (.ops c) = l.any (fun e => jsStrictEqOpt a e)) := by
  refine ⟨?_, ?_, ?_, ?_, ?_, ?_, ?_, ?_, ?_⟩ <;>
    · intro c
      obtain ⟨e, q, no, co, sw, ew, gt, lt, i⟩ := c
      intros
      subst_eqs
      first
        | rfl
        | (cases co <;> cases sw <;> cases ew <;> rfl)

/-- C7 witness: the amended first-operator rule evaluated at a concrete
operator object and value. -/
theorem matchesCondition_first_operator_decides_witness :
    matchesCondition (some (.str ['x', 'y']))
        (.ops { containsOp := some ['x'], startsWithOp := some ['y'] }) = strIncludes ['x', 'y'] ['x'] :=
  matchesCondition_first_operator_decides.2.2.2.1
    { containsOp := some ['x'], startsWithOp := some ['y'] } ['x'] ['x', 'y'] rfl rfl rfl rfl

/-- C8: when every operator present in the object has a failing type
guard — the string operators against a non-string, the numeric
operators against a non-number — and the untyped operators are absent,
the comparison evaluates to `false` (fail-closed; the evaluator is a
total function, so no exception is possible in the model). -/
theorem matchesCondition_incompatible_type_false
    (c : ConditionValue) (a : Option Json)
    (he : c.existsOp = none) (hq : c.equalsOp = none) (hn : c.notOp = none)
    (hi : c.inOp = none)
    (hs : isStrVal a = false ∨ (c.containsOp = none ∧ c.startsWithOp = none ∧ c.endsWithOp = none))
    (hm : isNumVal a = false ∨ (c.greaterThanOp = none ∧ c.lessThanOp = none)) :
    matchesCondition a (.ops c) = false := by
  obtain ⟨e, q, no, co, sw, ew, gt, lt, i⟩ := c
  simp only at he hq hn hi
  subst_eqs
  match a, hs, hm with
  | none, _, _ => cases co <;> cases sw <;> cases ew <;> cases gt <;> cases lt <;> rfl
  | some (.null), _, _ => cases co <;> cases sw <;> cases ew <;> cases gt <;> cases lt <;> rfl
  | some (.bool b), _, _ => cases co <;> cases sw <;> cases ew <;> cases gt <;> cases lt <;> rfl
  | some (.arr xs), _, _ => cases co <;> cases sw <;> cases ew <;> cases gt <;> cases lt <;> rfl
  | some (.obj fs), _, _ => cases co <;> cases sw <;> cases ew <;> cases gt <;> cases lt <;> rfl
  | some (.str s), Or.inr ⟨h1, h2, h3⟩, _ =>
      subst_eqs
      cases gt <;> cases lt <;> rfl
  | some (.num x), _, Or.inr ⟨h1, h2⟩ =>
      subst_eqs
      cases co <;> cases sw <;> cases ew <;> rfl

/-- C8 witness: `greaterThan` applied to a string value evaluates to
`false`. -/
theorem matchesCondition_incompatible_type_false_witness :
    matchesCondition (some (.str ['a', 'b'])) (.ops { greaterThanOp := some 5 }) = false :=
  matchesCondition_incompatible_type_false { greaterThanOp := some 5 } (some (.str ['a', 'b']))
    rfl rfl rfl rfl (Or.inr ⟨rfl, rfl, rfl⟩) (Or.inl rfl)

/-- Helper for C1: under all-truthy rule responses, the first matching
condition is either a truthy response agreeing with the specification's
selection, or `null` with the specification selecting the default. -/
theorem findMatchingCondition_cases (conditions : List (Cond × Json)) (d : Json) (ctx : Ctx)
    (h : ∀ p ∈ conditions, jsTruthy p.2 = true) :
    (jsTruthy (findMatchingCondition conditions ctx) = true ∧
      findMatchingCondition conditions ctx = specSelectResponse conditions d ctx) ∨
    (findMatchingCondition conditions ctx = .null ∧
      specSelectResponse conditions d ctx = d) := by
  induction conditions with
  | nil => exact Or.inr ⟨rfl, rfl⟩
  | cons p rest ih =>
      obtain ⟨w, r⟩ := p
      by_cases hw : evaluate w ctx = true
      · exact Or.inl ⟨by simpa [findMatchingCondition, hw] using h (w, r) (by simp),
          by simp [findMatchingCondition, specSelectResponse, hw]⟩
      · have hrest := ih (fun q hq => h q (List.mem_cons_of_mem _ hq))
        simpa [findMatchingCondition, specSelectResponse, hw] using hrest

/-- C1 counterexample: a route whose single rule has an always-true
`when` but the falsy response `false` — the middleware serves the
default response, not the first matching rule's response as the claim
states. -/
theorem findMatchingResponse_falsy_counterexample :
    findMatchingResponse [(.mk none none none [], .bool false)] (.str ['d'])
        ⟨[], [], .null, []⟩ = .str ['d'] ∧
    specSelectResponse [(.mk none none none [], .bool false)] (.str ['d'])
        ⟨[], [], .null, []⟩ = .bool false ∧
    Json.str ['d'] ≠ Json.bool false :=
  ⟨rfl, rfl, by simp⟩

/-- C1 (amended): provided every rule's response is truthy (as every
JSON-object `ResponseSpec` is), the selected response is the response
of the first rule (in declaration order) whose `when` evaluates true,
and the route's `defaultResponse` when no rule's condition evaluates
true; rules after the first true one never affect the selection. -/
theorem findMatchingResponse_first_true_rule (conditions : List (Cond × Json))
    (defaultResponse : Json) (ctx : Ctx)
    (h : ∀ p ∈ conditions, jsTruthy p.2 = true) :
    findMatchingResponse conditions defaultResponse ctx =
      specSelectResponse conditions defaultResponse ctx := by
  cases conditions with
  | nil => rfl
  | cons p rest =>
      rcases findMatchingCondition_cases (p :: rest) defaultResponse ctx h with
        ⟨ht, heq⟩ | ⟨hnull, hd⟩
      · rw [heq] at ht
        simp [findMatchingResponse, heq, ht]
      · simp [findMatchingResponse, hnull, hd, jsTruthy]

/-- C1 witness: the amended selection rule at a concrete route
configuration with one matching rule. -/
theorem findMatchingResponse_first_true_rule_witness :
    findMatchingResponse [(.mk none none none [], .obj [])] (.str ['d']) ⟨[], [], .null, []⟩ =
      specSelectResponse [(.mk none none none [], .obj [])] (.str ['d']) ⟨[], [], .null, []⟩ :=
  findMatchingResponse_first_true_rule _ _ _ (by decide)

/-- `takeWhile` walks through a prefix on which the predicate holds. -/
theorem takeWhile_append_all (p : Char → Bool) (r t : Str) (h : r.all p = true) :
    (r ++ t).takeWhile p = r ++ t.takeWhile p := by
  induction r with
  | nil => simp
  | cons c cs ih => simp_all [List.takeWhile]

/-- `dropWhile` drops a prefix on which the predicate holds. -/
theorem dropWhile_append_all (p : Char → Bool) (r t : Str) (h : r.all p = true) :
    (r ++ t).dropWhile p = t.dropWhile p := by
  induction r with
  | nil => simp
  | cons c cs ih => simp_all [List.dropWhile]

/-- A string of the shape `{{inner}}` with `inner` non-empty and free
of `}` passes the anchored full-placeholder test with capture `inner`. -/
theorem fullPlaceholder_of_wrapped (inner : Str) (hne : inner ≠ [])
    (hnb : inner.all (fun c => c != '}') = true) :
    fullPlaceholder? ('{' :: '{' :: (inner ++ ['}', '}'])) = some inner := by
  simp only [fullPlaceholder?]
  rw [takeWhile_append_all _ _ _ hnb]
  simp [hne, List.drop_left]

/-- C9: a string that is entirely one `{{…}}` placeholder whose
(trimmed) name resolves to a defined value resolves to that value
itself, type preserved. -/
theorem processTemplate_whole_placeholder (sys : Str → Json) (ctx : Ctx)
    (inner : Str) (v : Json) (hne : inner ≠ [])
    (hnb : inner.all (fun c => c != '}') = true)
    (hres : resolveVariable sys (jsTrim inner) ctx = some v) :
    processTemplate sys (.str ('{' :: '{' :: (inner ++ ['}', '}']))) ctx = v := by
  simp [processTemplate, replaceVariables, fullPlaceholder_of_wrapped inner hne hnb, hres]

/-- C9 witness: with context `{params: {id: "7"}}` the template
`"{{params.id}}"` resolves to the string `"7"`. -/
theorem processTemplate_whole_placeholder_witness :
    processTemplate (fun _ => .null) (.str ('{' :: '{' :: ("params.id".toList ++ ['}', '}'])))
        ⟨[("id".toList, ['7'])], [], .null, []⟩ = .str ['7'] :=
  processTemplate_whole_placeholder _ _ _ _ (by decide) (by decide) rfl

/-- C4: a matched response with no `connectionFailure` and
`timeout === true` schedules the 5000 ms default timer and assembles no
body: the outcome is the pending 408 response whose body carries
`error`, `message`, `path` and `query`, with a message containing
"timed out". -/
theorem middlewareOutcome_timeout_true (sys : Str → Json) (resp : RouteResponse)
    (reqPath : Str) (reqQuery : List (Str × Json)) (ctx : Ctx)
    (dataLookup : Str → Option Json)
    (hcf : resp.connectionFailure? = none) (hto : resp.timeout? = some (.bool true)) :
    middlewareOutcome sys resp reqPath reqQuery ctx dataLookup =
      .timeoutPending 5000 408 (timeoutBody 5000 reqPath reqQuery) ∧
    jsonGet (timeoutBody 5000 reqPath reqQuery) "error".toList =
      some (.str "Request timeout".toList) ∧
    jsonGet (timeoutBody 5000 reqPath reqQuery) "message".toList =
      some (.str ("Request ".toList ++ "timed out".toList ++ " after 5000ms".toList)) ∧
    jsonGet (timeoutBody 5000 reqPath reqQuery) "path".toList = some (.str reqPath) ∧
    jsonGet (timeoutBody 5000 reqPath reqQuery) "query".toList = some (.obj reqQuery) := by
  refine ⟨?_, rfl, rfl, rfl, rfl⟩
  simp [middlewareOutcome, hcf, hto]

/-- C4 witness: the timeout outcome at a concrete matched response. -/
theorem middlewareOutcome_timeout_true_witness :
    middlewareOutcome (fun _ => .null)
        { statusCode := 200, body := {}, timeout? := some (.bool true) }
        "/p".toList [] ⟨[], [], .null, []⟩ (fun _ => none) =
      .timeoutPending 5000 408 (timeoutBody 5000 "/p".toList []) :=
  (middlewareOutcome_timeout_true _ _ _ _ _ _ rfl rfl).1

/-- C6 counterexample: `body = {data: 0}` — the seed `data` is used
(`!== undefined`) but falsy, so the result is the bare `0`, not the
`{ data: 0 }` envelope the claim requires. -/
theorem processResponseBody_wrap_counterexample :
    processResponseBody (fun _ => .null)
        { data? := some (.num 0) } ⟨[], [], .null, []⟩ (fun _ => none) = .ok (.num 0) ∧
    Except.ok (Json.num 0) ≠ (.ok (.obj [("data".toList, .num 0)]) : Except Str Json) :=
  ⟨rfl, by simp⟩

/-- C6 (amended): the assembler wraps the final processed value as
`{ data: … }` if and only if `dataFile` is truthy (a non-empty string)
or `data` is present with a truthy value; otherwise the resolved value
is returned as-is. -/
theorem processResponseBody_wrap_condition (sys : Str → Json) (body : ResponseBody)
    (ctx : Ctx) (dataLookup : Str → Option Json) :
    processResponseBody sys body ctx dataLookup =
      if fileTruthy body.dataFile? || dataTruthy body.data? then
        (assembledCore sys body ctx dataLookup).map fun v => .obj [("data".toList, v)]
      else assembledCore sys body ctx dataLookup := by
  obtain ⟨d, f, flt, l, dyn⟩ := body
  simp only [processResponseBody, assembledCore]
  cases hds : dataFileStep sys ⟨d, f, flt, l, dyn⟩ ctx dataLookup
      (match d with | some x => x | none => Json.obj []) with
  | error e =>
      cases hw : (fileTruthy f || dataTruthy d) <;> simp [hw, Except.map]
  | ok rd =>
      cases hw : (fileTruthy f || dataTruthy d) <;> simp [hw, Except.map]

/-- C5 counterexample: `{data: [1,2,3], limit: 2}` — the limit block is
inside the `dataFile` branch, so an array coming from `data` alone is
not truncated, contradicting the claim for the `data` source. -/
theorem processResponseBody_limit_data_only_counterexample :
    processResponseBody (fun _ => .null)
        { data? := some (.arr [.num 1, .num 2, .num 3]), limit? := some (.num 2) }
        ⟨[], [], .null, []⟩ (fun _ => none) =
      .ok (.obj [("data".toList, .arr [.num 1, .num 2, .num 3])]) ∧
    Json.arr [.num 1, .num 2, .num 3] ≠ Json.arr [.num 1, .num 2] :=
  ⟨rfl, by simp⟩

/-- C5 (amended): `limit` acts only inside the `dataFile` branch: on an
array loaded there it truncates exactly when the (template-resolved)
value parses to a positive integer, and leaves the array untouched
otherwise; it never changes a non-array value; and without a truthy
`dataFile` (in particular when only `data` supplies the value) `limit`
changes nothing at all.  The two final equations are the
specification's own examples, run against a data blob. -/
theorem applyLimit_amended :
    (∀ sys ctx lim d, isArr d = false → applyLimit sys ctx lim d = d) ∧
    (∀ sys ctx l xs n, limTruthy l = true → resolveLimit sys ctx l = some n → 0 < n →
        applyLimit sys ctx (some l) (.arr xs) = .arr (xs.take n.toNat)) ∧
    (∀ sys ctx l xs n, limTruthy l = true → resolveLimit sys ctx l = some n → n ≤ 0 →
        applyLimit sys ctx (some l) (.arr xs) = .arr xs) ∧
    (∀ sys ctx l xs, limTruthy l = true → resolveLimit sys ctx l = none →
        applyLimit sys ctx (some l) (.arr xs) = .arr xs) ∧
    (∀ sys ctx l xs, limTruthy l = false →
        applyLimit sys ctx (some l) (.arr xs) = .arr xs) ∧
    (∀ sys body ctx dataLookup, fileTruthy body.dataFile? = false →
        processResponseBody sys body ctx dataLookup =
          processResponseBody sys { body with limit? := none } ctx dataLookup) ∧
    processResponseBody (fun _ => .null) { dataFile? := some ['x'], limit? := some (.num 2) }
        ⟨[], [], .null, []⟩
        (fun f => if f = ['x'] then some (.arr [.num 1, .num 2, .num 3]) else none) =
      .ok (.obj [("data".toList, .arr [.num 1, .num 2])]) ∧
    processResponseBody (fun _ => .null) { dataFile? := some ['x'], limit? := some (.num 2) }
        ⟨[], [], .null, []⟩
        (fun f => if f = ['x'] then some (.obj [(['a'], .num 1)]) else none) =
      .ok (.obj [("data".toList, .obj [(['a'], .num 1)])]) := by
  refine ⟨?_, ?_, ?_, ?_, ?_, ?_, rfl, rfl⟩
  · intro sys ctx lim d hd
    cases lim <;> cases d <;> simp_all [applyLimit, isArr]
  · intro sys ctx l xs n h1 h2 h3
    simp [applyLimit, h1, h2, h3]
  · intro sys ctx l xs n h1 h2 h3
    have hn : ¬ (0 : Int) < n := by omega
    simp [applyLimit, h1, h2, hn]
  · intro sys ctx l xs h1 h2
    simp [applyLimit, h1, h2]
  · intro sys ctx l xs h1
    simp [applyLimit, h1]
  · intro sys body ctx dataLookup hf
    obtain ⟨d, f, flt, l, dyn⟩ := body
    cases f with
    | none => rfl
    | some f0 =>
        have hf0 : f0 = [] := by simpa [fileTruthy] using hf
        subst hf0
        rfl

/-- C5 witness: a positive parsed limit truncates the loaded array. -/
theorem applyLimit_amended_witness :
    applyLimit (fun _ => .null) ⟨[], [], .null, []⟩ (some (.num 2))
        (.arr [.num 1, .num 2, .num 3]) = .arr [.num 1, .num 2] :=
  applyLimit_amended.2.1 _ _ _ _ 2 rfl rfl (by decide)

/-! ### Split/join infrastructure for the path-matcher proof -/

/-- A split is never the empty list of segments. -/
theorem splitOnChar_ne_nil (sep : Char) (x : Str) : splitOnChar sep x ≠ [] := by
  cases x with
  | nil => simp [splitOnChar]
  | cons c rest =>
      simp only [splitOnChar]
      split
      · simp
      · split <;> simp

/-- Head/tail shape of a `/`-split: the first segment is the maximal
slash-free prefix, the remaining segments split the rest. -/
theorem splitSlash_eq (x : Str) :
    splitOnChar '/' x =
      x.takeWhile (fun c => c != '/') :: tailSplit (x.dropWhile (fun c => c != '/')) := by
  induction x with
  | nil => rfl
  | cons c cs ih =>
      by_cases hc : c = '/'
      · subst hc
        simp [splitOnChar, List.takeWhile, List.dropWhile, tailSplit]
      · have hc' : (fun c => c != '/') c = true := by simp [hc]
        simp only [splitOnChar, if_neg hc, List.takeWhile, List.dropWhile, hc']
        rw [ih]

/-- A slash-free string splits into exactly itself. -/
theorem splitSlash_all (x : Str) (h : x.all (fun c => c != '/') = true) :
    splitOnChar '/' x = [x] := by
  rw [splitSlash_eq]
  have hd : x.dropWhile (fun c => c != '/') = [] := by
    rw [List.dropWhile_eq_nil_iff]
    intro c hc
    exact List.all_eq_true.mp h c hc
  have ht : x.takeWhile (fun c => c != '/') = x :=
    List.takeWhile_eq_self_iff.mpr (fun c hc => List.all_eq_true.mp h c hc)
  rw [hd, ht]
  rfl

/-- The dichotomy of `dropWhile (· != '/')`: nothing left, or a list
beginning with `/`. -/
theorem dropWhile_slash_cases (x : Str) :
    x.dropWhile (fun c => c != '/') = [] ∨
      ∃ d, x.dropWhile (fun c => c != '/') = '/' :: d := by
  induction x with
  | nil => exact Or.inl rfl
  | cons c cs ih =>
      by_cases hc : c = '/'
      · subst hc
        refine Or.inr ⟨cs, ?_⟩
        rw [List.dropWhile_cons]
        simp
      · have hc' : (c != '/') = true := by simp [hc]
        rw [List.dropWhile_cons, hc']
        simpa using ih

/-- A string containing a slash splits into at least two segments. -/
theorem splitSlash_two_le (x : Str) (h : x.all (fun c => c != '/') = false) :
    2 ≤ (splitOnChar '/' x).length := by
  rw [splitSlash_eq]
  rcases dropWhile_slash_cases x with hd | ⟨d, hd⟩
  · exfalso
    rw [List.dropWhile_eq_nil_iff] at hd
    have hall : x.all (fun c => c != '/') = true := List.all_eq_true.mpr fun c hc => hd c hc
    rw [hall] at h
    exact Bool.noConfusion h
  · rw [hd]
    simp only [tailSplit, List.length_cons]
    rcases hsp : splitOnChar '/' d with _ | ⟨a, as⟩
    · exact absurd hsp (splitOnChar_ne_nil '/' d)
    · simp

/-- Joining the split of a string restores the string. -/
theorem joinSegs_splitOnChar (x : Str) : joinSegs (splitOnChar '/' x) = x := by
  induction x with
  | nil => rfl
  | cons c cs ih =>
      rcases hsp : splitOnChar '/' cs with _ | ⟨s, ss⟩
      · exact absurd hsp (splitOnChar_ne_nil '/' cs)
      · rw [hsp] at ih
        by_cases hc : c = '/'
        · subst hc
          simp only [splitOnChar, if_pos rfl, hsp]
          cases ss <;> simpa [joinSegs] using ih
        · simp only [splitOnChar, if_neg hc, hsp]
          cases ss <;> simpa [joinSegs] using ih

/-- Every segment of a split is free of the separator. -/
theorem splitOnChar_no_sep (x : Str) :
    ∀ s ∈ splitOnChar '/' x, s.all (fun c => c != '/') = true := by
  induction x with
  | nil =>
      intro s hs
      rw [show splitOnChar '/' [] = [[]] from rfl, List.mem_singleton] at hs
      subst hs
      rfl
  | cons c cs ih =>
      intro s hs
      by_cases hc : c = '/'
      · subst hc
        rw [show splitOnChar '/' ('/' :: cs) = [] :: splitOnChar '/' cs from by
          simp [splitOnChar]] at hs
        rcases List.mem_cons.mp hs with h1 | h1
        · subst h1; rfl
        · exact ih s h1
      · rcases hsp : splitOnChar '/' cs with _ | ⟨t, ts⟩
        · exact absurd hsp (splitOnChar_ne_nil '/' cs)
        · rw [show splitOnChar '/' (c :: cs) = (c :: t) :: ts from by
            simp [splitOnChar, hc, hsp]] at hs
          rcases List.mem_cons.mp hs with h1 | h1
          · subst h1
            have ht := ih t (by rw [hsp]; exact List.mem_cons_self _ _)
            simp [List.all_cons, hc, ht]
          · exact ih s (by rw [hsp]; exact List.mem_cons_of_mem _ h1)

/-! ### Tokenization lemmas -/

/-- A character other than `:` and `.` tokenizes to itself. -/
theorem tokenize_cons_lit (c : Char) (rest : Str) (h1 : c ≠ ':') (h2 : c ≠ '.') :
    tokenize (c :: rest) = .lit c :: tokenize rest := by
  rw [tokenize.eq_def]
  split
  · simp_all
  · simp_all
  · simp_all
  · rename_i h
    injection h with hc hr
    subst hc
    subst hr
    rfl

/-- A run of ordinary characters tokenizes to literals. -/
theorem tokenize_lit_append (s t : Str) (h : ∀ c ∈ s, c ≠ ':' ∧ c ≠ '.') :
    tokenize (s ++ t) = s.map Tok.lit ++ tokenize t := by
  induction s with
  | nil => simp
  | cons c cs ih =>
      have hc := h c (List.mem_cons_self _ _)
      rw [List.cons_append, tokenize_cons_lit c (cs ++ t) hc.1 hc.2,
        ih fun d hd => h d (List.mem_cons_of_mem _ hd)]
      rfl

/-- A parameter run `:name` followed by nothing or a `/` tokenizes to
the capture group. -/
theorem tokenize_param (r t : Str) (hr : r ≠ [])
    (hall : r.all (fun c => c != '/') = true)
    (ht : t = [] ∨ t.head? = some '/') :
    tokenize (':' :: (r ++ t)) = .param :: tokenize t := by
  have htw : (r ++ t).takeWhile (fun c => c != '/') = r := by
    rw [takeWhile_append_all _ _ _ hall]
    rcases ht with ht | ht
    · subst ht; simp
    · rcases t with _ | ⟨y, ys⟩
      · simp at ht
      · simp at ht
        subst ht
        simp [List.takeWhile]
  have hdw : (r ++ t).dropWhile (fun c => c != '/') = t := by
    rw [dropWhile_append_all _ _ _ hall]
    rcases ht with ht | ht
    · subst ht; simp
    · rcases t with _ | ⟨y, ys⟩
      · simp at ht
      · simp at ht
        subst ht
        simp [List.dropWhile]
  rw [tokenize.eq_def]
  simp only [htw, hdw]
  split
  · rename_i h
    exact absurd h hr
  · rfl

/-- `contains = false` gives element-wise distinctness. -/
theorem contains_false_forall (s : Str) (a : Char) (h : s.contains a = false) :
    ∀ c ∈ s, c ≠ a := by
  induction s with
  | nil => intro c hc; cases hc
  | cons b bs ih =>
      intro c hc
      rcases List.mem_cons.mp hc with h1 | h1
      · subst h1
        intro hca
        subst hca
        simp [List.contains_cons] at h
      · refine ih ?_ c h1
        simp only [List.contains_cons, Bool.or_eq_false_iff] at h
        exact h.2

/-- A wellformed pattern segment is a parameter `:name` with non-empty
name, or a plain literal segment free of `:` and of regex
metacharacters. -/
theorem wfSeg_cases (s : Str) (h : wfSeg s = true) :
    (∃ r, s = ':' :: r ∧ r ≠ []) ∨
      (s.contains ':' = false ∧ (s.all fun c => !regexMeta.contains c) = true) := by
  rcases s with _ | ⟨c, cs⟩
  · right
    constructor <;> rfl
  · by_cases hc : c = ':'
    · subst hc
      left
      refine ⟨cs, rfl, ?_⟩
      simpa [wfSeg] using h
    · right
      rw [wfSeg.eq_def] at h
      split at h
      · rename_i heq
        injection heq with heq1
        exact absurd heq1 hc
      · rw [Bool.and_eq_true] at h
        exact ⟨by simpa using h.1, h.2⟩

/-- A metacharacter-free segment contains no `.` in particular. -/
theorem all_no_meta_ne_dot (s : Str)
    (h : (s.all fun c => !regexMeta.contains c) = true) :
    ∀ c ∈ s, c ≠ '.' := by
  intro c hc heq
  subst heq
  have hd := List.all_eq_true.mp h '.' hc
  exact absurd hd (by decide)

/-- A plain segment compiles to its literal characters. -/
theorem tokSeg_plain (s : Str) (h : s.contains ':' = false) :
    tokSeg s = s.map Tok.lit := by
  rw [tokSeg.eq_def]
  split
  · simp [List.contains_cons] at h
  · rfl

/-- Compiling a `/`-joined list of wellformed, slash-free segments
yields the segment tokens joined by literal slashes. -/
theorem tokenize_join (segs : List Str) (hwf : ∀ s ∈ segs, wfSeg s = true)
    (hsl : ∀ s ∈ segs, s.all (fun c => c != '/') = true) :
    tokenize (joinSegs segs) = tokJoin segs := by
  induction segs with
  | nil => simp [joinSegs, tokJoin, tokenize]
  | cons s rest ih =>
      have hws := hwf s (List.mem_cons_self _ _)
      have hss := hsl s (List.mem_cons_self _ _)
      cases rest with
      | nil =>
          show tokenize (joinSegs [s]) = tokJoin [s]
          rcases wfSeg_cases s hws with ⟨r, rfl, hr⟩ | ⟨h1, h2⟩
          · have hall : r.all (fun c => c != '/') = true := by
              simpa [List.all_cons] using hss
            have := tokenize_param r [] hr hall (Or.inl rfl)
            simpa [joinSegs, tokJoin, tokSeg, tokenize] using this
          · have := tokenize_lit_append s []
              (fun c hc => ⟨contains_false_forall s ':' h1 c hc,
                            all_no_meta_ne_dot s h2 c hc⟩)
            simpa [joinSegs, tokJoin, tokSeg_plain s h1, tokenize] using this
      | cons s₂ rest₂ =>
          have ih' := ih (fun u hu => hwf u (List.mem_cons_of_mem _ hu))
            (fun u hu => hsl u (List.mem_cons_of_mem _ hu))
          have hslash : tokenize ('/' :: joinSegs (s₂ :: rest₂)) =
              .lit '/' :: tokenize (joinSegs (s₂ :: rest₂)) :=
            tokenize_cons_lit '/' _ (by decide) (by decide)
          rcases wfSeg_cases s hws with ⟨r, rfl, hr⟩ | ⟨h1, h2⟩
          · have hall : r.all (fun c => c != '/') = true := by
              simpa [List.all_cons] using hss
            have hp := tokenize_param r ('/' :: joinSegs (s₂ :: rest₂)) hr hall
              (Or.inr rfl)
            show tokenize ((':' :: r) ++ '/' :: joinSegs (s₂ :: rest₂)) = _
            rw [List.cons_append, hp, hslash, ih']
            rfl
          · have hl := tokenize_lit_append s ('/' :: joinSegs (s₂ :: rest₂))
              (fun c hc => ⟨contains_false_forall s ':' h1 c hc,
                            all_no_meta_ne_dot s h2 c hc⟩)
            show tokenize (s ++ '/' :: joinSegs (s₂ :: rest₂)) = _
            rw [hl, hslash, ih']
            show _ = tokSeg s ++ .lit '/' :: tokJoin (s₂ :: rest₂)
            rw [tokSeg_plain s h1]

/-! ### Regex-matching lemmas -/

/-- The empty token list accepts exactly the empty path. -/
theorem rmatch_nil_left (x : Str) : rmatch [] x = x.isEmpty := by
  cases x <;> simp [rmatch]

/-- A pure literal run accepts exactly itself. -/
theorem rmatch_lit_map (s x : Str) : rmatch (s.map Tok.lit) x = (s == x) := by
  induction s generalizing x with
  | nil => cases x <;> simp [rmatch]
  | cons c cs ih =>
      cases x with
      | nil => simp [rmatch]
      | cons y ys =>
          show rmatch (Tok.lit c :: cs.map Tok.lit) (y :: ys) = _
          simp [rmatch, ih, List.cons_beq_cons]

/-- Peeling a literal run off the front of the token list. -/
theorem rmatch_lit_append (s : Str) (ts : List Tok) (x : Str) :
    rmatch (s.map Tok.lit ++ ts) x = (s.isPrefixOf x && rmatch ts (x.drop s.length)) := by
  induction s generalizing x with
  | nil => simp [List.isPrefixOf]
  | cons c cs ih =>
      cases x with
      | nil =>
          show rmatch (Tok.lit c :: (cs.map Tok.lit ++ ts)) [] = _
          simp [rmatch, List.isPrefixOf]
      | cons y ys =>
          show rmatch (Tok.lit c :: (cs.map Tok.lit ++ ts)) (y :: ys) = _
          simp [rmatch, ih, List.isPrefixOf, Bool.and_assoc]

/-- A trailing capture group accepts any non-empty slash-free string. -/
theorem paramMatch_nil (x : Str) : paramMatch [] x = x.all (fun c => c != '/') := by
  induction x with
  | nil => simp [paramMatch, rmatch]
  | cons y ys ih => simp [paramMatch, rmatch, ih]

/-- `rmatch` for the token list of a single parameter segment. -/
theorem rmatch_param_only (x : Str) :
    rmatch [Tok.param] x = (!x.isEmpty && x.all (fun c => c != '/')) := by
  cases x with
  | nil => simp [rmatch]
  | cons y ys => simp [rmatch, paramMatch_nil]

/-- A leading literal slash forces the path to begin with `/`. -/
theorem rmatch_slash (ts : List Tok) (x : Str) :
    rmatch (Tok.lit '/' :: ts) x = afterSlash ts x := by
  cases x with
  | nil => simp [rmatch, afterSlash]
  | cons y ys =>
      by_cases hy : y = '/'
      · subst hy
        simp [rmatch, afterSlash]
      · have h1 : ('/' == y) = false := beq_eq_false_iff_ne.mpr (Ne.symm hy)
        have h2 : (y == '/') = false := beq_eq_false_iff_ne.mpr hy
        simp [rmatch, afterSlash, h1, h2]

/-- The capture group before a literal slash must consume exactly the
maximal slash-free prefix. -/
theorem paramMatch_slash (ts : List Tok) (x : Str) :
    paramMatch (Tok.lit '/' :: ts) x =
      afterSlash ts (x.dropWhile (fun c => c != '/')) := by
  induction x with
  | nil => simp [paramMatch, rmatch, afterSlash]
  | cons y ys ih =>
      by_cases hy : y = '/'
      · subst hy
        simp [paramMatch, rmatch_slash, afterSlash, List.dropWhile_cons]
      · have h2 : (y == '/') = false := beq_eq_false_iff_ne.mpr hy
        simp [paramMatch, rmatch_slash, afterSlash, List.dropWhile_cons, hy, h2, ih]

/-- `rmatch` for a parameter segment followed by a slash. -/
theorem rmatch_param_slash (ts : List Tok) (x : Str) :
    rmatch (Tok.param :: Tok.lit '/' :: ts) x =
      (!(x.takeWhile (fun c => c != '/')).isEmpty &&
        afterSlash ts (x.dropWhile (fun c => c != '/'))) := by
  cases x with
  | nil => simp [rmatch, List.takeWhile]
  | cons y ys =>
      by_cases hy : y = '/'
      · subst hy
        simp [rmatch, List.takeWhile_cons, List.dropWhile_cons]
      · simp [rmatch, paramMatch_slash, List.takeWhile_cons, List.dropWhile_cons, hy]

/-- A slash-free literal segment before a slash consumes exactly the
maximal slash-free prefix. -/
theorem prefix_afterSlash (ts : List Tok) (s : Str) (h : s.all (fun c => c != '/') = true) :
    ∀ x : Str, (s.isPrefixOf x && afterSlash ts (x.drop s.length)) =
      ((x.takeWhile (fun c => c != '/') == s) && afterSlash ts (x.dropWhile (fun c => c != '/'))) := by
  induction s with
  | nil =>
      intro x
      cases x with
      | nil => simp [List.isPrefixOf]
      | cons y ys =>
          by_cases hy : y = '/'
          · subst hy
            simp [List.isPrefixOf, List.takeWhile_cons, List.dropWhile_cons]
          · have h2 : (y != '/') = true := by simp [hy]
            simp [List.isPrefixOf, List.takeWhile_cons, List.dropWhile_cons, h2,
              afterSlash, hy]
  | cons c cs ih =>
      have hc : c ≠ '/' := by
        intro hcc
        rw [List.all_cons, hcc] at h
        simp at h
      have hcs : cs.all (fun c => c != '/') = true := by
        simp only [List.all_cons, Bool.and_eq_true] at h
        exact h.2
      intro x
      cases x with
      | nil => simp [List.isPrefixOf, List.takeWhile]
      | cons y ys =>
          by_cases hy : y = '/'
          · subst hy
            have h0 : (c == '/') = false := beq_eq_false_iff_ne.mpr hc
            have h1 : (('/' : Char) != '/') = false := by simp
            simp [List.isPrefixOf, List.takeWhile_cons, List.dropWhile_cons, h0, h1]
          · have h2 : (y != '/') = true := by simp [hy]
            simp only [List.isPrefixOf, List.takeWhile_cons, List.dropWhile_cons, h2,
              List.drop_succ_cons, Bool.and_assoc, if_true, List.length_cons]
            rw [ih hcs ys]
            by_cases hcy : c = y
            · subst hcy
              simp [List.cons_beq_cons]
            · have h4 : (c == y) = false := beq_eq_false_iff_ne.mpr hcy
              have h5 : (y == c) = false := beq_eq_false_iff_ne.mpr (Ne.symm hcy)
              simp [List.cons_beq_cons, h4, h5]

/-! ### The segment-level correspondence -/

/-- `!= []` is `!isEmpty`. -/
theorem bne_nil_eq_not_isEmpty (l : Str) : (l != []) = !l.isEmpty := by
  cases l <;> rfl

/-- A parameter segment matches exactly the non-empty path segments. -/
theorem segMatches_param (r q : Str) : segMatches (':' :: r) q = (q != []) := rfl

/-- A plain segment (no `:`) matches by string equality. -/
theorem segMatches_plain (s : Str) (h : s.contains ':' = false) (q : Str) :
    segMatches s q = (s == q) := by
  rw [segMatches.eq_def]
  split
  · simp [List.contains_cons] at h
  · rfl

/-- The equal-length plus zip-wise form equals the pairwise recursion. -/
theorem segsMatch_eq (ps qs : List Str) :
    (ps.length == qs.length && (ps.zip qs).all fun pq => segMatches pq.1 pq.2) =
      segsMatch ps qs := by
  induction ps generalizing qs with
  | nil => cases qs <;> simp [segsMatch]
  | cons p ps ih =>
      cases qs with
      | nil => simp [segsMatch]
      | cons q qs =>
          show ((ps.length + 1 == qs.length + 1) && _) = _
          have hlen : (ps.length + 1 == qs.length + 1) = (ps.length == qs.length) := by
            by_cases h : ps.length = qs.length
            · simp [h]
            · have h1 : ps.length + 1 ≠ qs.length + 1 := by omega
              simp [beq_eq_false_iff_ne.mpr h, beq_eq_false_iff_ne.mpr h1]
          rw [hlen]
          simp only [List.zip_cons_cons, List.all_cons, segsMatch, ← ih]
          cases segMatches p q <;> simp

/-- `specPathMatch` in pairwise form. -/
theorem specPathMatch_eq (configPath requestPath : Str) :
    specPathMatch configPath requestPath =
      segsMatch (splitOnChar '/' configPath) (splitOnChar '/' requestPath) := by
  rw [specPathMatch, segsMatch_eq]

/-- The token list compiled from a wellformed segment list accepts a
path exactly when the segments match the path's `/`-split pairwise. -/
theorem rmatch_tokJoin (segs : List Str) (hne : segs ≠ [])
    (hwf : ∀ s ∈ segs, wfSeg s = true)
    (hsl : ∀ s ∈ segs, s.all (fun c => c != '/') = true) :
    ∀ x : Str, rmatch (tokJoin segs) x = segsMatch segs (splitOnChar '/' x) := by
  induction segs with
  | nil => exact absurd rfl hne
  | cons s rest ih =>
      have hws := hwf s (List.mem_cons_self _ _)
      have hss := hsl s (List.mem_cons_self _ _)
      intro x
      cases rest with
      | nil =>
          rcases dropWhile_slash_cases x with hdw | ⟨d, hdw⟩
          · have htw : x.takeWhile (fun c => c != '/') = x :=
              List.takeWhile_eq_self_iff.mpr (List.dropWhile_eq_nil_iff.mp hdw)
            have hall : x.all (fun c => c != '/') = true :=
              List.all_eq_true.mpr (List.dropWhile_eq_nil_iff.mp hdw)
            rw [splitSlash_eq x, hdw, htw]
            show rmatch (tokJoin [s]) x = segsMatch [s] (x :: tailSplit [])
            rcases wfSeg_cases s hws with ⟨r, rfl, hr⟩ | ⟨h1, h2⟩
            · show rmatch [Tok.param] x = _
              rw [rmatch_param_only]
              simp [segsMatch, tailSplit, segMatches_param, hall, bne_nil_eq_not_isEmpty]
            · show rmatch (tokSeg s) x = _
              rw [tokSeg_plain s h1, rmatch_lit_map]
              simp [segsMatch, tailSplit, segMatches_plain s h1]
          · have hnall : x.all (fun c => c != '/') = false := by
              cases hx : x.all (fun c => c != '/')
              · rfl
              · have hnil : x.dropWhile (fun c => c != '/') = [] :=
                  List.dropWhile_eq_nil_iff.mpr fun c hc => List.all_eq_true.mp hx c hc
                rw [hnil] at hdw
                cases hdw
            rw [splitSlash_eq x, hdw]
            show rmatch (tokJoin [s]) x =
              segsMatch [s] (x.takeWhile (fun c => c != '/') :: tailSplit ('/' :: d))
            have htl : tailSplit ('/' :: d) = splitOnChar '/' d := rfl
            rw [htl]
            obtain ⟨a, as, hsp⟩ : ∃ a as, splitOnChar '/' d = a :: as := by
              rcases h : splitOnChar '/' d with _ | ⟨a, as⟩
              · exact absurd h (splitOnChar_ne_nil '/' d)
              · exact ⟨a, as, rfl⟩
            rw [hsp]
            rcases wfSeg_cases s hws with ⟨r, rfl, hr⟩ | ⟨h1, h2⟩
            · show rmatch [Tok.param] x = _
              rw [rmatch_param_only]
              simp [segsMatch, hnall]
            · show rmatch (tokSeg s) x = _
              rw [tokSeg_plain s h1, rmatch_lit_map]
              cases hsx : s == x
              · simp [segsMatch]
              · have hxeq : s = x := by simpa using hsx
                rw [hxeq] at hss
                rw [hss] at hnall
                cases hnall
      | cons s₂ rest₂ =>
          have ihx := ih (by simp)
            (fun u hu => hwf u (List.mem_cons_of_mem _ hu))
            (fun u hu => hsl u (List.mem_cons_of_mem _ hu))
          have htj : tokJoin (s :: s₂ :: rest₂) =
              tokSeg s ++ Tok.lit '/' :: tokJoin (s₂ :: rest₂) := rfl
          rw [htj, splitSlash_eq x]
          rcases dropWhile_slash_cases x with hdw | ⟨d, hdw⟩
          · rw [hdw]
            show _ = segsMatch (s :: s₂ :: rest₂) (_ :: tailSplit [])
            rcases wfSeg_cases s hws with ⟨r, rfl, hr⟩ | ⟨h1, h2⟩
            · show rmatch (Tok.param :: Tok.lit '/' :: tokJoin (s₂ :: rest₂)) x = _
              rw [rmatch_param_slash, hdw]
              simp [afterSlash, segsMatch, tailSplit]
            · show rmatch (tokSeg s ++ Tok.lit '/' :: tokJoin (s₂ :: rest₂)) x = _
              rw [tokSeg_plain s h1, rmatch_lit_append, rmatch_slash,
                prefix_afterSlash _ s hss x, hdw]
              simp [afterSlash, segsMatch, tailSplit]
          · rw [hdw]
            show _ = segsMatch (s :: s₂ :: rest₂) (_ :: tailSplit ('/' :: d))
            have htl : tailSplit ('/' :: d) = splitOnChar '/' d := rfl
            rw [htl]
            have ihd := ihx d
            rcases wfSeg_cases s hws with ⟨r, rfl, hr⟩ | ⟨h1, h2⟩
            · show rmatch (Tok.param :: Tok.lit '/' :: tokJoin (s₂ :: rest₂)) x = _
              rw [rmatch_param_slash, hdw]
              simp [afterSlash, ihd, segsMatch, segMatches_param, bne_nil_eq_not_isEmpty]
            · show rmatch (tokSeg s ++ Tok.lit '/' :: tokJoin (s₂ :: rest₂)) x = _
              rw [tokSeg_plain s h1, rmatch_lit_append, rmatch_slash,
                prefix_afterSlash _ s hss x, hdw]
              have hals : afterSlash (tokJoin (s₂ :: rest₂)) ('/' :: d) =
                  rmatch (tokJoin (s₂ :: rest₂)) d := by simp [afterSlash]
              rw [hals, ihd]
              show (_ && _) = segsMatch (s :: s₂ :: rest₂) (_ :: splitOnChar '/' d)
              rw [show segsMatch (s :: s₂ :: rest₂)
                    (x.takeWhile (fun c => c != '/') :: splitOnChar '/' d) =
                  (segMatches s (x.takeWhile (fun c => c != '/')) &&
                    segsMatch (s₂ :: rest₂) (splitOnChar '/' d)) from rfl,
                segMatches_plain s h1]
              by_cases hts : x.takeWhile (fun c => c != '/') = s
              · simp [hts]
              · simp [beq_eq_false_iff_ne.mpr hts, beq_eq_false_iff_ne.mpr (Ne.symm hts)]

/-- For wellformed patterns, the compiled-regex matcher agrees with the
segment-wise specification. -/
theorem matchesPath_eq_spec (configPath requestPath : Str)
    (hwf : wfPattern configPath = true) :
    matchesPath configPath requestPath = specPathMatch configPath requestPath := by
  have hsegs := splitOnChar_ne_nil '/' configPath
  have hwf' : ∀ s ∈ splitOnChar '/' configPath, wfSeg s = true := by
    rw [wfPattern] at hwf
    exact List.all_eq_true.mp hwf
  have hsl' := splitOnChar_no_sep configPath
  have htok : tokenize configPath = tokJoin (splitOnChar '/' configPath) := by
    conv_lhs => rw [← joinSegs_splitOnChar configPath]
    exact tokenize_join _ hwf' hsl'
  rw [matchesPath, htok, rmatch_tokJoin _ hsegs hwf' hsl' requestPath, specPathMatch_eq]

/-- Aligned indexing of a zip. -/
theorem zip_get?_eq {α β : Type} (l₁ : List α) (l₂ : List β) (i : Nat)
    (x : α) (y : β) (h₁ : l₁.get? i = some x) (h₂ : l₂.get? i = some y) :
    (l₁.zip l₂).get? i = some (x, y) := by
  induction l₁ generalizing l₂ i with
  | nil => cases i <;> cases h₁
  | cons a as ihz =>
      cases l₂ with
      | nil => cases i <;> cases h₂
      | cons b bs =>
          cases i with
          | zero =>
              cases h₁
              cases h₂
              rfl
          | succ j => exact ihz bs j h₁ h₂

/-- Every aligned parameter pair reaches the extraction loop's output. -/
theorem extractLoop_mem (L : List (Str × Str)) (i : Nat) (c r : Str)
    (h : L.get? i = some (c, r)) (hc : c.head? = some ':') :
    (c.drop 1, r) ∈ extractPathParams.extractLoop L := by
  induction L generalizing i with
  | nil => cases i <;> cases h
  | cons p rest ihe =>
      cases i with
      | zero =>
          cases h
          simp only [extractPathParams.extractLoop, hc]
          simp
      | succ j =>
          have hmem := ihe j h
          obtain ⟨pc, pr⟩ := p
          simp only [extractPathParams.extractLoop]
          split
          · exact List.mem_cons_of_mem _ hmem
          · exact hmem

/-- C2 counterexample: the pattern `/a:id` against the path `/ab`.
The compiled regex replaces the mid-segment run `:id` with a capture
group, so the matcher accepts `/ab`, while the claim's segment rule
(the segment `a:id` is not `:`-prefixed, hence must match exactly)
rejects it — and `extractPathParams` extracts nothing for it. -/
theorem matchesPath_counterexample :
    matchesPath ['/', 'a', ':', 'i', 'd'] ['/', 'a', 'b'] = true ∧
    specPathMatch ['/', 'a', ':', 'i', 'd'] ['/', 'a', 'b'] = false ∧
    extractPathParams ['/', 'a', ':', 'i', 'd'] ['/', 'a', 'b'] = [] := by
  refine ⟨?_, rfl, rfl⟩
  simp [matchesPath, tokenize, rmatch, paramMatch]

/-- C2 (amended): for route patterns whose segments are each either a
parameter `:name` (non-empty name) or a plain literal containing
neither `:` nor any regex metacharacter (`.`, `+`, `*`, `(`, `[`, …,
which the source's compiled regex would interpret), the matcher accepts exactly
when segment counts agree, literal segments match exactly and each
parameter segment faces a non-empty path segment; the method
comparison is by case-insensitive (uppercased) equality; and on a
match every parameter `:name` is bound to exactly its aligned path
segment in the extracted parameter list. -/
theorem matchesPath_spec_amended (configPath requestPath : Str)
    (hwf : wfPattern configPath = true) :
    (matchesPath configPath requestPath = specPathMatch configPath requestPath) ∧
    (∀ configMethod method : Str,
        matchesRoute configMethod configPath method requestPath =
          ((jsToUpper configMethod == jsToUpper method) &&
            specPathMatch configPath requestPath)) ∧
    (matchesPath configPath requestPath = true →
      ∀ i name seg,
        (splitOnChar '/' configPath).get? i = some (':' :: name) →
        (splitOnChar '/' requestPath).get? i = some seg →
        (name, seg) ∈ extractPathParams configPath requestPath) := by
  refine ⟨matchesPath_eq_spec configPath requestPath hwf, ?_, ?_⟩
  · intro configMethod method
    rw [matchesRoute, methodMatches, matchesPath_eq_spec configPath requestPath hwf]
  · intro hm i name seg hci hri
    have hspec : specPathMatch configPath requestPath = true := by
      rw [← matchesPath_eq_spec configPath requestPath hwf]
      exact hm
    have hlen : (splitOnChar '/' configPath).length =
        (splitOnChar '/' requestPath).length := by
      rw [specPathMatch] at hspec
      have := (Bool.and_eq_true _ _ ▸ hspec).1
      simpa using this
    rw [extractPathParams]
    rw [if_neg (by rw [hlen]; exact fun h => h rfl)]
    refine extractLoop_mem _ i (':' :: name) seg ?_ rfl
    exact zip_get?_eq _ _ i _ _ hci hri

/-- C2 witness: the amended rule at the pattern `/users/:id` and path
`/users/123`, including the extracted binding `id ↦ 123`. -/
theorem matchesPath_spec_amended_witness :
    matchesPath "/users/:id".toList "/users/123".toList =
      specPathMatch "/users/:id".toList "/users/123".toList ∧
    ("id".toList, "123".toList) ∈
      extractPathParams "/users/:id".toList "/users/123".toList := by
  constructor
  · exact (matchesPath_spec_amended _ _ (by decide)).1
  · refine (matchesPath_spec_amended "/users/:id".toList "/users/123".toList
      (by decide)).2.2 ?_ 2 "id".toList "123".toList rfl rfl
    rw [(matchesPath_spec_amended _ _ (by decide)).1]
    decide
